import Mathlib

/-!
Verification of the semantic pointer algebra and cleanup-memory subsystem
(`scripts/semantic_algebra.py`) of the brain-emulation repository.

The embedding works over exact reals.  NumPy float arrays of length `D`
become functions `Fin D → ℝ` (at the core-math level) or `List ℝ` (at the
level of the Python functions, which receive arrays of arbitrary length and
check dimensions at run time).  `np.fft.rfft`/`irfft` based circular
convolution and correlation are embedded by their exact mathematical value,
the cyclic convolution / cross-correlation sums (the discrete convolution
theorem).  Python exceptions become `Except String`.  Random generation
(`np.random.randn`) is not modelled: the randomly generated encoder and
decoder matrices of `NeuralEncoder` are carried as fields of the structure,
and `SemanticVocabulary.add` is modelled on its supplied-vector path.
-/

set_option maxHeartbeats 1000000

noncomputable section

namespace BrainEmulation

/-- A real vector of dimension `D`, modelling a 1-D numpy float array. -/
abbrev Vec (D : ℕ) := Fin D → ℝ

/-- L2 norm, `np.linalg.norm(v)`. -/
def vnorm {D : ℕ} (v : Vec D) : ℝ := Real.sqrt (∑ i, v i ^ 2)

/-- Euclidean distance `np.linalg.norm(x - y)`. -/
def vdist {D : ℕ} (x y : Vec D) : ℝ := vnorm (fun i => x i - y i)

/-- Dot product, `np.dot(a, b)` on equal-length vectors. -/
def dotFn {D : ℕ} (a b : Vec D) : ℝ := ∑ i, a i * b i

/-- The normalization step shared by all operations of the module:
divide by the L2 norm when it exceeds the `1e-10` floor
(`if norm > 1e-10: result = result / norm`), otherwise return the vector
unchanged (degenerate case). -/
def vnormalize {D : ℕ} (v : Vec D) : Vec D :=
  if 1e-10 < vnorm v then fun i => v i / vnorm v else v

/-- Exact value of `np.fft.irfft(np.fft.rfft(a) * np.fft.rfft(b), n=len(a))`
for real inputs of equal length: the cyclic convolution sum
`c[i] = Σ_j a[j] * b[(i-j) mod D]` (discrete convolution theorem).
`Fin D` subtraction is subtraction mod `D`. -/
def rawConv {D : ℕ} (a b : Vec D) : Vec D := fun i => ∑ j, a j * b (i - j)

/-- Exact value of
`np.fft.irfft(np.fft.rfft(c) * np.conj(np.fft.rfft(a)), n=len(c))` for real
inputs: conjugation in the frequency domain is cyclic index reversal in the
time domain, so this is the cyclic cross-correlation sum
`r[i] = Σ_j c[j] * a[(j-i) mod D]`. -/
def rawCorr {D : ℕ} (c a : Vec D) : Vec D := fun i => ∑ j, c j * a (j - i)

/-- Body of `circular_convolution` after the length check: FFT convolution
followed by the floor-guarded normalization. -/
def convFn {D : ℕ} (a b : Vec D) : Vec D := vnormalize (rawConv a b)

/-- Body of `circular_correlation` after the length check. -/
def corrFn {D : ℕ} (c a : Vec D) : Vec D := vnormalize (rawCorr c a)

/-- Body of `superposition` after the checks: elementwise sum of all the
vectors (`np.sum(vectors, axis=0)`) followed by the guarded normalization. -/
def superposeCore {D : ℕ} (vs : List (Vec D)) : Vec D :=
  vnormalize (fun k => (vs.map (fun v => v k)).sum)

/-- Standard basis vector `e_p`. -/
def basis {D : ℕ} (p : Fin D) : Vec D := fun i => if i = p then 1 else 0

/-- Entry `i` of a numpy array stored as a list (0 outside the array;
indices used by the code stay in range). -/
def lget (l : List ℝ) (i : ℕ) : ℝ := l.getD i 0

/-- View the first `D` entries of a list as a `Vec D`. -/
def toVec (l : List ℝ) (D : ℕ) : Vec D := fun i => lget l i.val

/-- L2 norm of an array given as a list. -/
def listNorm (l : List ℝ) : ℝ := Real.sqrt (∑ i : Fin l.length, lget l i.val ^ 2)

/-- `circular_convolution(a, b)`: raises `ValueError` when the lengths
differ, otherwise the FFT cyclic convolution normalized to unit length
unless its norm is at or below the `1e-10` floor. -/
def circular_convolution (a b : List ℝ) : Except String (List ℝ) :=
  if a.length = b.length then
    .ok (List.ofFn fun i : Fin a.length => convFn (toVec a a.length) (toVec b a.length) i)
  else .error "Vector dimensions must match"

/-- `circular_correlation(c, a)`: length check, then FFT cyclic
cross-correlation with the same normalization rule. -/
def circular_correlation (c a : List ℝ) : Except String (List ℝ) :=
  if c.length = a.length then
    .ok (List.ofFn fun i : Fin c.length => corrFn (toVec c c.length) (toVec a c.length) i)
  else .error "Vector dimensions must match"

/-- `superposition(*vectors)`: fails on an empty argument list, checks every
vector against the length of the first, then sums and normalizes. -/
def superposition (vectors : List (List ℝ)) : Except String (List ℝ) :=
  match vectors with
  | [] => .error "Must provide at least one vector"
  | v0 :: rest =>
    if rest.any (fun v => v.length != v0.length) then
      .error "Vector dimension mismatch"
    else
      .ok (List.ofFn fun i : Fin v0.length =>
        superposeCore ((v0 :: rest).map (fun v => toVec v v0.length)) i)

/-- `cosine_similarity(a, b)`: length check, then the plain dot product
(`float(np.dot(a, b))`). -/
def cosine_similarity (a b : List ℝ) : Except String ℝ :=
  if a.length = b.length then
    .ok (dotFn (toVec a a.length) (toVec b a.length))
  else .error "Vector dimensions must match"

/-- `SemanticVocabulary`: dimension plus the `name -> vector` dict, as an
association list in insertion order (Python dicts preserve it). -/
structure SemanticVocabulary where
  dim : ℕ
  vectors : List (String × List ℝ)

/-- Python dict assignment `d[k] = v`: replace the value in place when `k`
is already a key (keeping its position), otherwise append the pair. -/
def dictSet (l : List (String × List ℝ)) (k : String) (v : List ℝ) :
    List (String × List ℝ) :=
  if l.any (fun e => e.1 == k) then
    l.map (fun e => if e.1 == k then (k, v) else e)
  else l ++ [(k, v)]

/-- `SemanticVocabulary.get`: `KeyError` when absent. -/
def SemanticVocabulary.get (voc : SemanticVocabulary) (name : String) :
    Except String (List ℝ) :=
  match voc.vectors.find? (fun e => e.1 == name) with
  | some e => .ok e.2
  | none => .error "Semantic pointer not found in vocabulary"

/-- The floor-guarded normalization of a supplied vector in
`SemanticVocabulary.add` (`if norm > 1e-10: vector = vector / norm`). -/
def normalizeList (l : List ℝ) : List ℝ :=
  if 1e-10 < listNorm l then l.map (fun x => x / listNorm l) else l

/-- `SemanticVocabulary.add` on its supplied-vector path (`vector=None`
draws a random Gaussian vector instead, which is not modelled): rejects an
existing name, checks the dimension, normalizes when the norm exceeds the
floor, and stores the result. -/
def SemanticVocabulary.add (voc : SemanticVocabulary) (name : String)
    (vector : List ℝ) : Except String (List ℝ × SemanticVocabulary) :=
  if voc.vectors.any (fun e => e.1 == name) then
    .error "Semantic pointer already exists"
  else if vector.length = voc.dim then
    .ok (normalizeList vector,
      ⟨voc.dim, dictSet voc.vectors name (normalizeList vector)⟩)
  else .error "Vector dimension mismatch"

/-- `SemanticVocabulary.bind`: look both names up, circularly convolve, then
`self.vectors[result_name] = result` (a plain dict assignment, with no
uniqueness check on `result_name`).  Mutation of `self` is modelled by
returning the updated vocabulary next to the result. -/
def SemanticVocabulary.bind (voc : SemanticVocabulary) (name_a name_b result_name : String) :
    Except String (List ℝ × SemanticVocabulary) := do
  let a ← voc.get name_a
  let b ← voc.get name_b
  let result ← circular_convolution a b
  .ok (result, ⟨voc.dim, dictSet voc.vectors result_name result⟩)

/-- `SemanticVocabulary.unbind`: same shape with circular correlation. -/
def SemanticVocabulary.unbind (voc : SemanticVocabulary) (bound_name key_name result_name : String) :
    Except String (List ℝ × SemanticVocabulary) := do
  let bound ← voc.get bound_name
  let key ← voc.get key_name
  let result ← circular_correlation bound key
  .ok (result, ⟨voc.dim, dictSet voc.vectors result_name result⟩)

/-- `SemanticVocabulary.superpose`: look every name up, superpose, and store
under `result_name` by dict assignment. -/
def SemanticVocabulary.superpose (voc : SemanticVocabulary) (names : List String)
    (result_name : String) : Except String (List ℝ × SemanticVocabulary) := do
  let vecs ← names.mapM voc.get
  let result ← superposition vecs
  .ok (result, ⟨voc.dim, dictSet voc.vectors result_name result⟩)

/-- `NeuralEncoder` with `n_neurons` neurons over a `dim`-dimensional
semantic pointer space.  `encoders` holds the randomly drawn unit
preferred-direction rows; `decoders` carries the lazily computed
least-squares decode matrix (its random computation is not modelled). -/
structure NeuralEncoder (n_neurons dim : ℕ) where
  encoders : Fin n_neurons → Fin dim → ℝ
  decoders : Fin dim → Fin n_neurons → ℝ

/-- `NeuralEncoder.encode(sp, gain, bias)`: dimension check, then
`max(0, gain * (encoders @ sp) + bias)` per neuron (ReLU rectification). -/
def NeuralEncoder.encode {n d : ℕ} (enc : NeuralEncoder n d)
    (semantic_pointer : List ℝ) (gain bias : ℝ) : Except String (List ℝ) :=
  if semantic_pointer.length = d then
    .ok (List.ofFn fun i : Fin n =>
      max 0 (gain * (∑ j, enc.encoders i j * lget semantic_pointer j.val) + bias))
  else .error "Semantic pointer dimension mismatch"

/-- The unnormalized decode `decoders @ firing_rates`. -/
def decodeRaw {n d : ℕ} (enc : NeuralEncoder n d) (firing_rates : List ℝ) : Vec d :=
  fun i => ∑ j, enc.decoders i j * lget firing_rates j.val

/-- `NeuralEncoder.decode(firing_rates)`: length check against `n_neurons`,
linear decode, then the floor-guarded normalization. -/
def NeuralEncoder.decode {n d : ℕ} (enc : NeuralEncoder n d)
    (firing_rates : List ℝ) : Except String (List ℝ) :=
  if firing_rates.length = n then
    .ok (List.ofFn fun i : Fin d => vnormalize (decodeRaw enc firing_rates) i)
  else .error "Firing rate dimension mismatch"

/-- `SemanticWeightGenerator._circular_conv_matrix(vector)` (modelled without
the leading underscore): the matrix whose row `i` is `np.roll(vector, i)`.
`np.roll(v, i)[j] = v[(j - i) mod D]`, so entry `(i, j)` is `v (j - i)`. -/
def circular_conv_matrix {D : ℕ} (vector : Vec D) : Fin D → Fin D → ℝ :=
  fun i j => vector (j - i)

/-- Cyclic index reversal: the code builds
`reversed_vector = np.concatenate([[v[0]], v[1:][::-1]])`, whose entry `k`
is `v[(-k) mod D]`. -/
def involutionVec {D : ℕ} (vector : Vec D) : Vec D := fun k => vector (-k)

/-- `SemanticWeightGenerator._circular_corr_matrix(vector)`: the conv matrix
of the reversed vector. -/
def circular_corr_matrix {D : ℕ} (vector : Vec D) : Fin D → Fin D → ℝ :=
  circular_conv_matrix (involutionVec vector)

/-- `matrix @ x` for a square matrix. -/
def mulVecFn {D : ℕ} (M : Fin D → Fin D → ℝ) (x : Vec D) : Vec D :=
  fun i => ∑ j, M i j * x j

/-- `SemanticWeightGenerator`: source and target encoders of matching
semantic pointer dimension (enforced by the constructor). -/
structure SemanticWeightGenerator (n_src n_tgt dim : ℕ) where
  enc_src : NeuralEncoder n_src dim
  enc_tgt : NeuralEncoder n_tgt dim

/-- `SemanticWeightGenerator.__init__`: rejects encoders of different
semantic pointer dimensions. -/
def mkSemanticWeightGenerator {n1 d1 n2 d2 : ℕ} (encoder_src : NeuralEncoder n1 d1)
    (encoder_tgt : NeuralEncoder n2 d2) :
    Except String (SemanticWeightGenerator n1 n2 d1) :=
  if h : d2 = d1 then .ok ⟨encoder_src, h ▸ encoder_tgt⟩
  else .error "Encoder dimensions must match"

/-- `SemanticWeightGenerator.binding_weights(v)`: dimension check, then
`encoders_tgt @ circular_conv_matrix(v) @ decoders_src`. -/
def SemanticWeightGenerator.binding_weights {n1 n2 d : ℕ}
    (g : SemanticWeightGenerator n1 n2 d) (bind_with_vector : List ℝ) :
    Except String (Fin n2 → Fin n1 → ℝ) :=
  if bind_with_vector.length = d then
    .ok (fun i j => ∑ k, ∑ l,
      g.enc_tgt.encoders i k * circular_conv_matrix (toVec bind_with_vector d) k l *
        g.enc_src.decoders l j)
  else .error "Vector dimension mismatch"

/-- `SemanticWeightGenerator.unbinding_weights(v)`: dimension check, then
`encoders_tgt @ circular_corr_matrix(v) @ decoders_src`. -/
def SemanticWeightGenerator.unbinding_weights {n1 n2 d : ℕ}
    (g : SemanticWeightGenerator n1 n2 d) (unbind_vector : List ℝ) :
    Except String (Fin n2 → Fin n1 → ℝ) :=
  if unbind_vector.length = d then
    .ok (fun i j => ∑ k, ∑ l,
      g.enc_tgt.encoders i k * circular_corr_matrix (toVec unbind_vector d) k l *
        g.enc_src.decoders l j)
  else .error "Vector dimension mismatch"

/-- `CleanupMemory`: vocabulary snapshot, dimension, convergence threshold
and the Hopfield weight matrix fixed at construction time. -/
structure CleanupMemory where
  vocab : SemanticVocabulary
  dim : ℕ
  threshold : ℝ
  weights : Fin dim → Fin dim → ℝ

/-- `CleanupMemory._compute_hopfield_weights`: sum of outer products of all
vocabulary vectors with the diagonal forced to zero. -/
def hopfieldWeights (voc : SemanticVocabulary) : Fin voc.dim → Fin voc.dim → ℝ :=
  fun i j => if i = j then 0
    else (voc.vectors.map (fun e => lget e.2 i.val * lget e.2 j.val)).sum

/-- `CleanupMemory.__init__`: rejects an empty vocabulary and a non-positive
threshold, then snapshots the Hopfield weights. -/
def mkCleanupMemory (vocabulary : SemanticVocabulary) (threshold : ℝ) :
    Except String CleanupMemory :=
  if vocabulary.vectors.length = 0 then
    .error "Cannot create CleanupMemory with empty vocabulary"
  else if threshold ≤ 0 then .error "Threshold must be positive"
  else .ok ⟨vocabulary, vocabulary.dim, threshold, hopfieldWeights vocabulary⟩

/-- The pre-normalization iterate `tanh(W @ x)`. -/
def tanhStepRaw {D : ℕ} (W : Fin D → Fin D → ℝ) (x : Vec D) : Vec D :=
  fun i => Real.tanh (∑ j, W i j * x j)

/-- One settling iteration of `CleanupMemory.cleanup`: `tanh(W @ x)`,
normalized when its norm exceeds the `1e-10` floor, otherwise reset to the
original noisy vector divided by its own norm. -/
def cleanupStep {D : ℕ} (W : Fin D → Fin D → ℝ) (noisy x : Vec D) : Vec D :=
  let x_new := tanhStepRaw W x
  if 1e-10 < vnorm x_new then fun i => x_new i / vnorm x_new
  else fun i => noisy i / vnorm noisy

/-- The settling loop of `CleanupMemory.cleanup`.  `fuel` is the number of
iterations still allowed, `x` the current state, `traj` the trajectory
collected so far (in order), `done` the number of iterations already
executed.  Convergence (`‖x_new - x‖ < threshold`) returns immediately with
the iteration count; exhausted fuel returns the last state with
`done = max_iterations`. -/
def cleanupLoop {D : ℕ} (W : Fin D → Fin D → ℝ) (threshold : ℝ) (noisy : Vec D) :
    ℕ → Vec D → List (Vec D) → ℕ → Vec D × List (Vec D) × ℕ
  | 0, x, traj, done => (x, traj, done)
  | fuel + 1, x, traj, done =>
    let x_new := cleanupStep W noisy x
    let traj2 := traj ++ [x_new]
    if vdist x_new x < threshold then (x_new, traj2, done + 1)
    else cleanupLoop W threshold noisy fuel x_new traj2 (done + 1)

/-- Body of `CleanupMemory.cleanup` after the dimension check: the
trajectory starts with the raw (pre-iteration) input vector.  The
`return_trajectory=False` variant returns just the first component. -/
def cleanupRun {D : ℕ} (W : Fin D → Fin D → ℝ) (threshold : ℝ) (noisy : Vec D)
    (max_iterations : ℕ) : Vec D × List (Vec D) × ℕ :=
  cleanupLoop W threshold noisy max_iterations noisy [noisy] 0

/-- `CleanupMemory.cleanup(noisy, max_iterations, return_trajectory=True)`:
dimension check, then the settling loop. -/
def CleanupMemory.cleanup (cm : CleanupMemory) (noisy_vector : List ℝ)
    (max_iterations : ℕ) : Except String (List ℝ × List (List ℝ) × ℕ) :=
  if noisy_vector.length = cm.dim then
    .ok (let r := cleanupRun cm.weights cm.threshold (toVec noisy_vector cm.dim) max_iterations
      (List.ofFn r.1, r.2.1.map List.ofFn, r.2.2))
  else .error "Vector dimension does not match vocabulary dimension"

/-- Dot product of two arrays given as lists, as computed by the
`cosine_similarity` call inside `find_nearest_match` (whose length check
passes under the vocabulary invariant). -/
def listDot (a b : List ℝ) : ℝ := ∑ i : Fin a.length, lget a i.val * lget b i.val

/-- `CleanupMemory.find_nearest_match(vector)`: dimension check, then a
linear scan starting from `best_name = None`, `best_similarity = -1.0`,
updating on strictly greater similarity. -/
def CleanupMemory.find_nearest_match (cm : CleanupMemory) (vector : List ℝ) :
    Except String (Option String × ℝ) :=
  if vector.length = cm.dim then
    .ok (cm.vocab.vectors.foldl
      (fun best e =>
        if best.2 < listDot vector e.2 then (some e.1, listDot vector e.2) else best)
      (none, -1))
  else .error "Vector dimension does not match vocabulary dimension"

/-! ## Basic norm lemmas -/

lemma vnorm_def {D : ℕ} (v : Vec D) : vnorm v = Real.sqrt (∑ i, v i ^ 2) := rfl

lemma sumSq_nonneg {D : ℕ} (v : Vec D) : 0 ≤ ∑ i, v i ^ 2 :=
  Finset.sum_nonneg fun i _ => sq_nonneg (v i)

lemma vnorm_nonneg {D : ℕ} (v : Vec D) : 0 ≤ vnorm v := Real.sqrt_nonneg _

lemma vnorm_div_self {D : ℕ} (v : Vec D) (h : vnorm v ≠ 0) :
    vnorm (fun i => v i / vnorm v) = 1 := by
  have hS : (0:ℝ) ≤ ∑ i, v i ^ 2 := sumSq_nonneg v
  have hsq : vnorm v ^ 2 = ∑ i, v i ^ 2 := Real.sq_sqrt hS
  have hSne : (∑ i, v i ^ 2) ≠ 0 := by
    intro h0
    exact h (by rw [vnorm_def, h0, Real.sqrt_zero])
  rw [vnorm_def]
  have hone : (∑ i, (v i / vnorm v) ^ 2) = 1 := by
    calc (∑ i, (v i / vnorm v) ^ 2)
        = ∑ i, v i ^ 2 / vnorm v ^ 2 :=
          Finset.sum_congr rfl fun i _ => div_pow _ _ _
      _ = (∑ i, v i ^ 2) / vnorm v ^ 2 := (Finset.sum_div _ _ _).symm
      _ = 1 := by rw [hsq, div_self hSne]
  rw [hone, Real.sqrt_one]

lemma vnorm_ne_zero_of_floor {D : ℕ} {v : Vec D} (h : (1e-10:ℝ) < vnorm v) :
    vnorm v ≠ 0 :=
  ne_of_gt (lt_trans (by norm_num) h)

lemma vnormalize_norm {D : ℕ} {v : Vec D} (h : (1e-10:ℝ) < vnorm v) :
    vnorm (vnormalize v) = 1 := by
  rw [vnormalize, if_pos h]
  exact vnorm_div_self v (vnorm_ne_zero_of_floor h)

lemma listNorm_eq_vnorm (l : List ℝ) : listNorm l = vnorm (toVec l l.length) := rfl

lemma lget_map_div (l : List ℝ) (c : ℝ) (i : ℕ) :
    lget (l.map (fun x => x / c)) i = lget l i / c := by
  have h := List.getD_map l (0:ℝ) (n := i) (fun x => x / c)
  rw [zero_div] at h
  simpa only [lget] using h

lemma lget_ofFn {D : ℕ} (f : Vec D) (i : ℕ) (h : i < D) :
    lget (List.ofFn f) i = f ⟨i, h⟩ := by
  rw [lget, List.getD_eq_getElem?_getD, List.getElem?_ofFn]
  simp [List.ofFnNthVal, h]

lemma listNorm_ofFn {D : ℕ} (f : Vec D) : listNorm (List.ofFn f) = vnorm f := by
  rw [listNorm, vnorm_def]
  congr 1
  refine Fintype.sum_equiv (finCongr (List.length_ofFn f)) _ _ fun i => ?_
  have hi : i.val < D := by simpa [List.length_ofFn] using i.isLt
  rw [lget_ofFn f i.val hi]
  rfl

lemma listNorm_map_div (l : List ℝ) (h : listNorm l ≠ 0) :
    listNorm (l.map (fun x => x / listNorm l)) = 1 := by
  have hlen : (l.map (fun x => x / listNorm l)).length = l.length :=
    List.length_map _ _
  have heq : listNorm (l.map (fun x => x / listNorm l))
      = vnorm (fun i : Fin l.length => toVec l l.length i / listNorm l) := by
    rw [listNorm_eq_vnorm, vnorm_def, vnorm_def]
    congr 1
    refine Fintype.sum_equiv (finCongr hlen) _ _ fun i => ?_
    simp only [toVec, finCongr_apply, Fin.coe_cast]
    rw [lget_map_div]
  rw [heq]
  exact vnorm_div_self (toVec l l.length) (by rwa [← listNorm_eq_vnorm])

/-! ## What the roll-based circulant matrix actually computes -/

/-- The circulant matrix whose row `i` is `np.roll(v, i)` multiplies a
vector `x` to the circular correlation of `x` with `v`, not the circular
convolution. -/
lemma conv_matrix_is_correlation {D : ℕ} (v x : Vec D) :
    mulVecFn (circular_conv_matrix v) x = rawCorr x v := by
  funext i
  simp only [mulVecFn, circular_conv_matrix, rawCorr]
  exact Finset.sum_congr rfl fun j _ => mul_comm _ _

/-- Claim C1: false of the code, and the code contradicts its own
docstrings (`binding_weights`: "B = A ⊛ V"; `_circular_conv_matrix`:
"circulant matrix for circular convolution").  At `v = (0,1,0)` and
`x = (1,0,0)` in dimension 3, the roll-based matrix gives
`matrix @ x = (0,0,1)` whereas the circular convolution
`IDFT(DFT(x)·DFT(v))` is `(0,1,0)`; in general the matrix implements
circular *correlation* with `v` (so `binding_weights` and
`unbinding_weights` are swapped relative to their documentation). -/
theorem c1_conv_matrix_code_bug :
    mulVecFn (circular_conv_matrix (basis 1 : Vec 3)) (basis 0) = basis 2 ∧
    rawConv (basis 0 : Vec 3) (basis 1) = basis 1 ∧
    mulVecFn (circular_conv_matrix (basis 1 : Vec 3)) (basis 0)
      ≠ rawConv (basis 0 : Vec 3) (basis 1) ∧
    ∀ (D : ℕ) (v x : Vec D), mulVecFn (circular_conv_matrix v) x = rawCorr x v := by
  have h1 : mulVecFn (circular_conv_matrix (basis 1 : Vec 3)) (basis 0) = basis 2 := by
    funext i
    fin_cases i <;>
      simp [mulVecFn, circular_conv_matrix, basis, Fin.sum_univ_three] <;> decide
  have h2 : rawConv (basis 0 : Vec 3) (basis 1) = basis 1 := by
    funext i
    fin_cases i <;>
      simp [rawConv, basis, Fin.sum_univ_three]
  refine ⟨h1, h2, ?_, fun D v x => conv_matrix_is_correlation v x⟩
  rw [h1, h2]
  intro h
  have := congrFun h 1
  simp [basis] at this

/-! ## Commutativity of binding -/

lemma rawConv_comm {D : ℕ} (a b : Vec D) : rawConv a b = rawConv b a := by
  funext i
  simp only [rawConv]
  cases D with
  | zero => exact i.elim0
  | succ n =>
    refine Fintype.sum_equiv (Equiv.subLeft i) _ _ fun j => ?_
    simp only [Equiv.subLeft_apply, sub_sub_cancel]
    ring

lemma convFn_comm {D : ℕ} (a b : Vec D) : convFn a b = convFn b a := by
  rw [convFn, convFn, rawConv_comm]

lemma convFn_cast {m n : ℕ} (h : m = n) (A B : Fin m → ℝ) (i : Fin m) :
    convFn A B i = convFn (fun k => A (Fin.cast h.symm k))
      (fun k => B (Fin.cast h.symm k)) (Fin.cast h i) := by
  subst h
  rfl

lemma ofFn_congr_len {m n : ℕ} (h : m = n) (f : Fin m → ℝ) (g : Fin n → ℝ)
    (hfg : ∀ i : Fin m, f i = g (Fin.cast h i)) : List.ofFn f = List.ofFn g := by
  subst h
  exact congrArg List.ofFn (funext fun i => hfg i)

/-- The dot product of a floor-normalized vector with itself is exactly 1. -/
lemma dotFn_self_of_floor {D : ℕ} {v : Vec D} (h : (1e-10:ℝ) < vnorm v) :
    dotFn (vnormalize v) (vnormalize v) = 1 := by
  have h1 : vnorm (vnormalize v) = 1 := vnormalize_norm h
  have hS : (0:ℝ) ≤ ∑ i, vnormalize v i ^ 2 := sumSq_nonneg _
  have hsum : (∑ i, vnormalize v i ^ 2) = 1 := by
    have h2 := Real.sq_sqrt hS
    rw [show Real.sqrt (∑ i, vnormalize v i ^ 2) = 1 from h1] at h2
    simpa using h2.symm
  rw [dotFn]
  calc (∑ i, vnormalize v i * vnormalize v i)
      = ∑ i, vnormalize v i ^ 2 := Finset.sum_congr rfl fun i _ => (sq (vnormalize v i)).symm
    _ = 1 := hsum

/-- Claim C9 (amended): binding is exactly commutative — the full Python
function `circular_convolution` (dimension check included) gives equal
results on `(a, b)` and `(b, a)` for all equal-length inputs; and the
spec's tested consequence `similarity(bind(a,b), bind(b,a)) > 0.99` holds
whenever the unnormalized convolution clears the `1e-10` floor (the
similarity is then exactly 1).  For degenerate inputs the consequence
fails (see the counterexample). -/
theorem c9_bind_commutative :
    (∀ a b : List ℝ, a.length = b.length →
      circular_convolution a b = circular_convolution b a) ∧
    (∀ (D : ℕ) (a b : Vec D), (1e-10:ℝ) < vnorm (rawConv a b) →
      dotFn (convFn a b) (convFn b a) > 0.99) := by
  constructor
  · intro a b h
    rw [circular_convolution, circular_convolution, if_pos h, if_pos h.symm]
    congr 1
    refine ofFn_congr_len h _ _ fun i => ?_
    calc convFn (toVec a a.length) (toVec b a.length) i
        = convFn (toVec a b.length) (toVec b b.length) (Fin.cast h i) :=
          convFn_cast h _ _ i
      _ = convFn (toVec b b.length) (toVec a b.length) (Fin.cast h i) := by
          rw [convFn_comm]
  · intro D a b h
    rw [convFn_comm b a]
    have h2 : dotFn (convFn a b) (convFn a b) = 1 := dotFn_self_of_floor h
    rw [h2]
    norm_num

/-- Entries of the two-element zero list. -/
lemma lget_zero2 (n : ℕ) : lget [(0:ℝ), 0] n = 0 := by
  rcases n with _ | _ | n <;> simp [lget]

/-- Claim C9 counterexample: at `a = b = (0, 0)` (equal-length real
vectors), `bind(a, b) = bind(b, a) = (0, 0)` and
`similarity(bind(a,b), bind(b,a)) = 0`, which is not `> 0.99`; so the
claimed entailment of the spec's tested consequence fails for degenerate
inputs. -/
theorem c9_counterexample :
    circular_convolution [(0:ℝ), 0] [(0:ℝ), 0] = .ok [(0:ℝ), 0] ∧
    cosine_similarity [(0:ℝ), 0] [(0:ℝ), 0] = .ok 0 ∧
    ¬ ((0:ℝ) > 0.99) := by
  have hraw : rawConv (toVec [(0:ℝ), 0] 2) (toVec [(0:ℝ), 0] 2) = fun _ => 0 := by
    funext i
    simp [rawConv, toVec, lget_zero2]
  have hnorm0 : vnorm (fun _ : Fin 2 => (0:ℝ)) = 0 := by
    simp [vnorm_def]
  refine ⟨?_, ?_, by norm_num⟩
  · rw [circular_convolution, if_pos rfl]
    have hconv : convFn (toVec [(0:ℝ), 0] 2) (toVec [(0:ℝ), 0] 2) = fun _ => 0 := by
      rw [convFn, hraw, vnormalize, hnorm0, if_neg (by norm_num)]
    show Except.ok (List.ofFn fun i : Fin 2 =>
      convFn (toVec [(0:ℝ), 0] 2) (toVec [(0:ℝ), 0] 2) i) = _
    simp [hconv, List.ofFn_succ]
  · rw [cosine_similarity, if_pos rfl]
    simp [dotFn, toVec, lget_zero2]

/-! ## Basis-vector algebra of binding and unbinding -/

lemma vnorm_zero_fun {D : ℕ} : vnorm (fun _ : Fin D => (0:ℝ)) = 0 := by
  simp [vnorm_def]

lemma sumSq_basis {D : ℕ} (p : Fin D) : (∑ i, basis p i ^ 2) = 1 := by
  have hpt : ∀ i : Fin D, basis p i ^ 2 = if i = p then (1:ℝ) else 0 := by
    intro i
    by_cases h : i = p <;> simp [basis, h]
  rw [Finset.sum_congr rfl fun i _ => hpt i, Finset.sum_ite_eq']
  simp

lemma vnorm_basis {D : ℕ} (p : Fin D) : vnorm (basis p) = 1 := by
  rw [vnorm_def, sumSq_basis, Real.sqrt_one]

lemma dotFn_basis_self {D : ℕ} (p : Fin D) : dotFn (basis p) (basis p) = 1 := by
  rw [dotFn]
  have hpt : ∀ i : Fin D, basis p i * basis p i = if i = p then (1:ℝ) else 0 := by
    intro i
    by_cases h : i = p <;> simp [basis, h]
  rw [Finset.sum_congr rfl fun i _ => hpt i, Finset.sum_ite_eq']
  simp

lemma vnormalize_of_norm_one {D : ℕ} {v : Vec D} (h : vnorm v = 1) :
    vnormalize v = v := by
  rw [vnormalize, if_pos (show (1e-10:ℝ) < vnorm v by rw [h]; norm_num), h]
  funext i
  simp

lemma rawConv_basis {D : ℕ} (p q : Fin D) :
    rawConv (basis p) (basis q) = basis (p + q) := by
  cases D with
  | zero => exact p.elim0
  | succ n =>
    funext i
    simp only [rawConv, basis]
    have hsummand : ∀ j : Fin (n+1),
        (if j = p then (1:ℝ) else 0) * (if i - j = q then (1:ℝ) else 0)
        = if j = p then (if i - p = q then (1:ℝ) else 0) else 0 := by
      intro j
      by_cases h : j = p <;> simp [h]
    rw [Finset.sum_congr rfl fun j _ => hsummand j, Finset.sum_ite_eq']
    simp only [Finset.mem_univ, if_true]
    have hiff : (i - p = q) ↔ (i = p + q) := by
      rw [sub_eq_iff_eq_add, add_comm q p]
    by_cases h : i - p = q
    · rw [if_pos h, if_pos (hiff.mp h)]
    · rw [if_neg h, if_neg (fun hc => h (hiff.mpr hc))]

lemma rawCorr_basis {D : ℕ} (s q : Fin D) :
    rawCorr (basis s) (basis q) = basis (s - q) := by
  cases D with
  | zero => exact s.elim0
  | succ n =>
    funext i
    simp only [rawCorr, basis]
    have hsummand : ∀ j : Fin (n+1),
        (if j = s then (1:ℝ) else 0) * (if j - i = q then (1:ℝ) else 0)
        = if j = s then (if s - i = q then (1:ℝ) else 0) else 0 := by
      intro j
      by_cases h : j = s <;> simp [h]
    rw [Finset.sum_congr rfl fun j _ => hsummand j, Finset.sum_ite_eq']
    simp only [Finset.mem_univ, if_true]
    have hiff : (s - i = q) ↔ (i = s - q) := by
      constructor
      · intro h
        have h2 : s = q + i := sub_eq_iff_eq_add.mp h
        rw [h2, add_sub_cancel_left]
      · intro h
        rw [h, sub_sub_cancel]
    by_cases h : s - i = q
    · rw [if_pos h, if_pos (hiff.mp h)]
    · rw [if_neg h, if_neg (fun hc => h (hiff.mpr hc))]

lemma convFn_basis {D : ℕ} (p q : Fin D) :
    convFn (basis p) (basis q) = basis (p + q) := by
  rw [convFn, rawConv_basis, vnormalize_of_norm_one (vnorm_basis _)]

lemma corrFn_basis {D : ℕ} (s q : Fin D) :
    corrFn (basis s) (basis q) = basis (s - q) := by
  rw [corrFn, rawCorr_basis, vnormalize_of_norm_one (vnorm_basis _)]

/-- Claim C3 (amended): the bind/unbind round trip with recovered
similarity above 0.6 is not universal over unit vectors (see the
counterexample), but it does hold for every pair of standard-basis unit
vectors in every dimension `D ≥ 50`: the round trip recovers the other
operand exactly, with similarity `1 > 0.6`. -/
theorem c3_roundtrip_basis (D : ℕ) (hD : 50 ≤ D) (p q : Fin D) :
    vnorm (basis p : Vec D) = 1 ∧ vnorm (basis q : Vec D) = 1 ∧
    dotFn (corrFn (convFn (basis p) (basis q)) (basis q)) (basis p) > 0.6 := by
  refine ⟨vnorm_basis p, vnorm_basis q, ?_⟩
  cases D with
  | zero => exact p.elim0
  | succ n =>
    rw [convFn_basis, corrFn_basis, add_sub_cancel_right, dotFn_basis_self]
    norm_num

/-- Witness for the amended C3 at `D = 50`, `a = b = e_0`. -/
theorem c3_roundtrip_basis_witness :
    (50:ℕ) ≤ 50 ∧
    dotFn (corrFn (convFn (basis (0 : Fin 50)) (basis 0)) (basis 0)) (basis 0) > 0.6 :=
  ⟨le_refl 50, (c3_roundtrip_basis 50 (le_refl 50) 0 0).2.2⟩

/-- The zero-sum unit vector `(1/√2, -1/√2, 0, ..., 0)` of dimension 50. -/
def c3a : Vec 50 := fun j =>
  if j = 0 then (Real.sqrt 2)⁻¹ else if j = 1 then -(Real.sqrt 2)⁻¹ else 0

/-- The constant unit vector `(1/√50, ..., 1/√50)` of dimension 50. -/
def c3b : Vec 50 := fun _ => (Real.sqrt 50)⁻¹

/-- Claim C3 counterexample: for the unit vectors `a = c3a` (components
summing to zero) and `b = c3b` (constant) of dimension 50, the circular
convolution is identically zero (all DFT components of `b` except the DC
term vanish, and the DC term of `a` vanishes), the degenerate branch keeps
the zero vector, and the recovered similarity is 0, not `> 0.6`. -/
theorem c3_counterexample :
    vnorm c3a = 1 ∧ vnorm c3b = 1 ∧
    ¬ (dotFn (corrFn (convFn c3a c3b) c3b) c3a > 0.6) := by
  have hs2 : ((Real.sqrt 2)⁻¹ : ℝ) ^ 2 = 2⁻¹ := by
    rw [inv_pow, Real.sq_sqrt (by norm_num : (0:ℝ) ≤ 2)]
  have hs50 : ((Real.sqrt 50)⁻¹ : ℝ) ^ 2 = 50⁻¹ := by
    rw [inv_pow, Real.sq_sqrt (by norm_num : (0:ℝ) ≤ 50)]
  have h01 : (0 : Fin 50) ≠ 1 := by decide
  have hna : vnorm c3a = 1 := by
    rw [vnorm_def]
    have hpt : ∀ j : Fin 50, c3a j ^ 2
        = (if j = 0 then ((Real.sqrt 2)⁻¹:ℝ) ^ 2 else 0)
          + (if j = 1 then ((Real.sqrt 2)⁻¹:ℝ) ^ 2 else 0) := by
      intro j
      by_cases h0 : j = 0
      · subst h0
        simp [c3a, h01]
      · by_cases h1 : j = 1 <;> simp [c3a, h0, h1]
    rw [Finset.sum_congr rfl fun j _ => hpt j, Finset.sum_add_distrib,
      Finset.sum_ite_eq', Finset.sum_ite_eq']
    simp only [Finset.mem_univ, if_true]
    rw [hs2]
    norm_num
  have hnb : vnorm c3b = 1 := by
    rw [vnorm_def]
    simp only [c3b]
    rw [Finset.sum_const, Finset.card_univ, Fintype.card_fin, nsmul_eq_mul, hs50]
    norm_num
  have hsum : (∑ j, c3a j) = 0 := by
    have hpt : ∀ j : Fin 50, c3a j
        = (if j = 0 then ((Real.sqrt 2)⁻¹:ℝ) else 0)
          + (if j = 1 then (-(Real.sqrt 2)⁻¹:ℝ) else 0) := by
      intro j
      by_cases h0 : j = 0
      · subst h0
        simp [c3a, h01]
      · by_cases h1 : j = 1 <;> simp [c3a, h0, h1]
    rw [Finset.sum_congr rfl fun j _ => hpt j, Finset.sum_add_distrib,
      Finset.sum_ite_eq', Finset.sum_ite_eq']
    simp
  have hraw : rawConv c3a c3b = fun _ => 0 := by
    funext i
    simp only [rawConv, c3b]
    rw [← Finset.sum_mul, hsum, zero_mul]
  have hconv : convFn c3a c3b = fun _ => 0 := by
    rw [convFn, hraw, vnormalize, vnorm_zero_fun, if_neg (by norm_num)]
  have hcorr : corrFn (convFn c3a c3b) c3b = fun _ => 0 := by
    rw [hconv, corrFn]
    have : rawCorr (fun _ : Fin 50 => (0:ℝ)) c3b = fun _ => 0 := by
      funext i
      simp [rawCorr]
    rw [this, vnormalize, vnorm_zero_fun, if_neg (by norm_num)]
  refine ⟨hna, hnb, ?_⟩
  rw [hcorr]
  have : dotFn (fun _ : Fin 50 => (0:ℝ)) c3a = 0 := by
    simp [dotFn]
  rw [this]
  norm_num

/-! ## Dimension-mismatch rejection -/

lemma error_iff_ite {α : Type _} (c : Prop) [Decidable c] (x : α) (msg : String) :
    (∃ e, (if c then Except.ok x else Except.error msg) = Except.error e) ↔ ¬c := by
  by_cases h : c <;> simp [h]

lemma error_iff_ite' {α : Type _} (c : Prop) [Decidable c] (x : α) (msg : String) :
    (∃ e, (if c then Except.error msg else Except.ok x) = Except.error e) ↔ c := by
  by_cases h : c <;> simp [h]

lemma error_iff_dite {α : Type _} (c : Prop) [Decidable c] (f : c → α) (msg : String) :
    (∃ e, (if h : c then Except.ok (f h) else Except.error msg) = Except.error e) ↔ ¬c := by
  by_cases h : c <;> simp [h]

/-- Claim C8: every listed multi-argument operation fails exactly when the
input lengths disagree with the expected or previously fixed
dimensionality: `circular_convolution`, `circular_correlation`,
`superposition` (each later vector against the first), `cosine_similarity`,
`NeuralEncoder.encode`/`decode`, `CleanupMemory.cleanup` and
`find_nearest_match`, the `SemanticWeightGenerator` constructor, and its
`binding_weights`/`unbinding_weights`. -/
theorem c8_dimension_mismatch_rejection :
    (∀ a b : List ℝ,
      (∃ e, circular_convolution a b = Except.error e) ↔ a.length ≠ b.length) ∧
    (∀ c a : List ℝ,
      (∃ e, circular_correlation c a = Except.error e) ↔ c.length ≠ a.length) ∧
    (∀ (v0 : List ℝ) (rest : List (List ℝ)),
      (∃ e, superposition (v0 :: rest) = Except.error e) ↔
        ∃ v ∈ rest, v.length ≠ v0.length) ∧
    (∀ a b : List ℝ,
      (∃ e, cosine_similarity a b = Except.error e) ↔ a.length ≠ b.length) ∧
    (∀ (n d : ℕ) (enc : NeuralEncoder n d) (sp : List ℝ) (gain bias : ℝ),
      (∃ e, enc.encode sp gain bias = Except.error e) ↔ sp.length ≠ d) ∧
    (∀ (n d : ℕ) (enc : NeuralEncoder n d) (fr : List ℝ),
      (∃ e, enc.decode fr = Except.error e) ↔ fr.length ≠ n) ∧
    (∀ (cm : CleanupMemory) (noisy : List ℝ) (mi : ℕ),
      (∃ e, cm.cleanup noisy mi = Except.error e) ↔ noisy.length ≠ cm.dim) ∧
    (∀ (cm : CleanupMemory) (v : List ℝ),
      (∃ e, cm.find_nearest_match v = Except.error e) ↔ v.length ≠ cm.dim) ∧
    (∀ (n1 d1 n2 d2 : ℕ) (src : NeuralEncoder n1 d1) (tgt : NeuralEncoder n2 d2),
      (∃ e, mkSemanticWeightGenerator src tgt = Except.error e) ↔ d1 ≠ d2) ∧
    (∀ (n1 n2 d : ℕ) (g : SemanticWeightGenerator n1 n2 d) (v : List ℝ),
      (∃ e, g.binding_weights v = Except.error e) ↔ v.length ≠ d) ∧
    (∀ (n1 n2 d : ℕ) (g : SemanticWeightGenerator n1 n2 d) (v : List ℝ),
      (∃ e, g.unbinding_weights v = Except.error e) ↔ v.length ≠ d) := by
  refine ⟨?_, ?_, ?_, ?_, ?_, ?_, ?_, ?_, ?_, ?_, ?_⟩
  · intro a b
    rw [circular_convolution]
    exact error_iff_ite _ _ _
  · intro c a
    rw [circular_correlation]
    exact error_iff_ite _ _ _
  · intro v0 rest
    rw [show superposition (v0 :: rest)
        = (if rest.any (fun v => v.length != v0.length) then
            Except.error "Vector dimension mismatch"
          else Except.ok (List.ofFn fun i : Fin v0.length =>
            superposeCore ((v0 :: rest).map (fun v => toVec v v0.length)) i)) from rfl]
    rw [error_iff_ite']
    simp [List.any_eq_true, bne_iff_ne]
  · intro a b
    rw [cosine_similarity]
    exact error_iff_ite _ _ _
  · intro n d enc sp gain bias
    rw [NeuralEncoder.encode]
    exact error_iff_ite _ _ _
  · intro n d enc fr
    rw [NeuralEncoder.decode]
    exact error_iff_ite _ _ _
  · intro cm noisy mi
    rw [CleanupMemory.cleanup]
    exact error_iff_ite _ _ _
  · intro cm v
    rw [CleanupMemory.find_nearest_match]
    exact error_iff_ite _ _ _
  · intro n1 d1 n2 d2 src tgt
    rw [mkSemanticWeightGenerator]
    rw [error_iff_dite]
    exact ne_comm
  · intro n1 n2 d g v
    rw [SemanticWeightGenerator.binding_weights]
    exact error_iff_ite _ _ _
  · intro n1 n2 d g v
    rw [SemanticWeightGenerator.unbinding_weights]
    exact error_iff_ite _ _ _

/-! ## Vocabulary overwrite semantics -/

lemma except_bind_ok {α β : Type _} (x : α) (f : α → Except String β) :
    (Except.ok x : Except String α) >>= f = f x := rfl

lemma find?_map_replace (l : List (String × List ℝ)) (k : String) (v : List ℝ)
    (h : l.any (fun e => e.1 == k) = true) :
    (l.map (fun e => if e.1 == k then (k, v) else e)).find? (fun e => e.1 == k)
      = some (k, v) := by
  induction l with
  | nil => simp at h
  | cons e t ih =>
    simp only [List.map_cons]
    by_cases he : (e.1 == k) = true
    · rw [if_pos he, List.find?_cons_of_pos _ (by simp)]
    · rw [if_neg he, List.find?_cons_of_neg _ (by simpa using he)]
      apply ih
      simp only [List.any_cons, he, Bool.false_or] at h
      exact h

lemma find?_dictSet (l : List (String × List ℝ)) (k : String) (v : List ℝ) :
    (dictSet l k v).find? (fun e => e.1 == k) = some (k, v) := by
  rw [dictSet]
  by_cases h : l.any (fun e => e.1 == k) = true
  · rw [if_pos h]
    exact find?_map_replace l k v h
  · rw [if_neg h]
    rw [List.find?_append]
    have hnone : l.find? (fun e => e.1 == k) = none := by
      rw [List.find?_eq_none]
      intro x hx hpred
      exact h (List.any_eq_true.mpr ⟨x, hx, hpred⟩)
    rw [hnone]
    simp

lemma get_dictSet (dim : ℕ) (l : List (String × List ℝ)) (k : String) (v : List ℝ) :
    SemanticVocabulary.get ⟨dim, dictSet l k v⟩ k = Except.ok v := by
  rw [SemanticVocabulary.get]
  rw [show (SemanticVocabulary.mk dim (dictSet l k v)).vectors = dictSet l k v from rfl]
  rw [find?_dictSet]

/-- Claim C2 (amended): `bind`, `unbind` and `superpose` perform no
uniqueness check on `result_name`; whenever their lookups and the
underlying algebra operation succeed they succeed as well — also when
`result_name` is already present — and the result is stored under
`result_name` by plain dict assignment, silently replacing any previously
stored vector. -/
theorem c2_overwrite :
    (∀ (voc : SemanticVocabulary) (A B R : String) (a b r : List ℝ),
      voc.get A = Except.ok a → voc.get B = Except.ok b →
      circular_convolution a b = Except.ok r →
      voc.bind A B R = Except.ok (r, ⟨voc.dim, dictSet voc.vectors R r⟩) ∧
      SemanticVocabulary.get ⟨voc.dim, dictSet voc.vectors R r⟩ R = Except.ok r) ∧
    (∀ (voc : SemanticVocabulary) (C K R : String) (c k r : List ℝ),
      voc.get C = Except.ok c → voc.get K = Except.ok k →
      circular_correlation c k = Except.ok r →
      voc.unbind C K R = Except.ok (r, ⟨voc.dim, dictSet voc.vectors R r⟩) ∧
      SemanticVocabulary.get ⟨voc.dim, dictSet voc.vectors R r⟩ R = Except.ok r) ∧
    (∀ (voc : SemanticVocabulary) (names : List String) (R : String)
        (vecs : List (List ℝ)) (r : List ℝ),
      names.mapM voc.get = Except.ok vecs → superposition vecs = Except.ok r →
      voc.superpose names R = Except.ok (r, ⟨voc.dim, dictSet voc.vectors R r⟩) ∧
      SemanticVocabulary.get ⟨voc.dim, dictSet voc.vectors R r⟩ R = Except.ok r) := by
  refine ⟨?_, ?_, ?_⟩
  · intro voc A B R a b r ha hb hr
    refine ⟨?_, get_dictSet _ _ _ _⟩
    rw [SemanticVocabulary.bind, ha, hb]
    simp only [except_bind_ok]
    rw [hr]
    simp only [except_bind_ok]
  · intro voc C K R c k r hc hk hr
    refine ⟨?_, get_dictSet _ _ _ _⟩
    rw [SemanticVocabulary.unbind, hc, hk]
    simp only [except_bind_ok]
    rw [hr]
    simp only [except_bind_ok]
  · intro voc names R vecs r hv hr
    refine ⟨?_, get_dictSet _ _ _ _⟩
    rw [SemanticVocabulary.superpose, hv]
    simp only [except_bind_ok]
    rw [hr]
    simp only [except_bind_ok]

/-- Concrete evaluations used by the C2 counterexample and witness. -/
lemma toVec_10 : toVec [(1:ℝ), 0] 2 = basis 0 := by
  funext i
  fin_cases i <;> simp [toVec, lget, basis]

lemma toVec_01 : toVec [(0:ℝ), 1] 2 = basis 1 := by
  funext i
  fin_cases i <;> simp [toVec, lget, basis]

lemma ofFn_basis0 : List.ofFn (basis 0 : Vec 2) = [(1:ℝ), 0] := by
  simp [List.ofFn_succ, basis, Fin.ext_iff]

lemma ofFn_basis1 : List.ofFn (basis 1 : Vec 2) = [(0:ℝ), 1] := by
  simp [List.ofFn_succ, basis, Fin.ext_iff]

lemma c2_conv_eval :
    circular_convolution [(1:ℝ), 0] [(0:ℝ), 1] = Except.ok [(0:ℝ), 1] := by
  rw [circular_convolution,
    if_pos (show ([(1:ℝ), 0]).length = ([(0:ℝ), 1]).length from rfl)]
  congr 1
  show (List.ofFn fun i : Fin 2 =>
    convFn (toVec [(1:ℝ), 0] 2) (toVec [(0:ℝ), 1] 2) i) = _
  rw [show (fun i : Fin 2 => convFn (toVec [(1:ℝ), 0] 2) (toVec [(0:ℝ), 1] 2) i)
      = convFn (toVec [(1:ℝ), 0] 2) (toVec [(0:ℝ), 1] 2) from rfl]
  rw [toVec_10, toVec_01, convFn_basis]
  exact ofFn_basis1

/-- The vocabulary of the C2 counterexample: `R` is already present. -/
def c2voc : SemanticVocabulary := ⟨2, [("A", [1, 0]), ("B", [0, 1]), ("R", [1, 0])]⟩

/-- Claim C2 counterexample: in a vocabulary where `R` is already bound to
`(1, 0)`, `bind("A", "B", "R")` does not fail with an already-exists error;
it succeeds and silently replaces the stored vector by the bound result
`(0, 1)`. -/
theorem c2_counterexample :
    c2voc.get "R" = Except.ok [(1:ℝ), 0] ∧
    c2voc.bind "A" "B" "R"
      = Except.ok ([(0:ℝ), 1],
          ⟨2, [("A", [1, 0]), ("B", [0, 1]), ("R", [0, 1])]⟩) ∧
    ([(0:ℝ), 1]) ≠ [(1:ℝ), 0] := by
  refine ⟨rfl, ?_, by simp⟩
  rw [SemanticVocabulary.bind,
    show c2voc.get "A" = Except.ok [(1:ℝ), 0] from rfl,
    show c2voc.get "B" = Except.ok [(0:ℝ), 1] from rfl]
  simp only [except_bind_ok]
  rw [c2_conv_eval]
  simp only [except_bind_ok]
  rfl

lemma c2_corr_eval :
    circular_correlation [(1:ℝ), 0] [(0:ℝ), 1] = Except.ok [(0:ℝ), 1] := by
  rw [circular_correlation,
    if_pos (show ([(1:ℝ), 0]).length = ([(0:ℝ), 1]).length from rfl)]
  congr 1
  show (List.ofFn fun i : Fin 2 =>
    corrFn (toVec [(1:ℝ), 0] 2) (toVec [(0:ℝ), 1] 2) i) = _
  rw [show (fun i : Fin 2 => corrFn (toVec [(1:ℝ), 0] 2) (toVec [(0:ℝ), 1] 2) i)
      = corrFn (toVec [(1:ℝ), 0] 2) (toVec [(0:ℝ), 1] 2) from rfl]
  rw [toVec_10, toVec_01, corrFn_basis, show (0 - 1 : Fin 2) = 1 by decide]
  exact ofFn_basis1

lemma c2_superpose_eval : superposition [[(1:ℝ), 0]] = Except.ok [(1:ℝ), 0] := by
  have h1 : superposition [[(1:ℝ), 0]]
      = Except.ok (List.ofFn fun i : Fin 2 =>
          superposeCore ([[(1:ℝ), 0]].map (fun v => toVec v 2)) i) := rfl
  rw [h1]
  have hcore : superposeCore ([[(1:ℝ), 0]].map (fun v => toVec v 2)) = basis 0 := by
    rw [show ([[(1:ℝ), 0]].map (fun v => toVec v 2)) = [toVec [(1:ℝ), 0] 2] from rfl,
      superposeCore]
    have hfun : (fun k : Fin 2 => (List.map (fun v => v k) [toVec [(1:ℝ), 0] 2]).sum)
        = toVec [(1:ℝ), 0] 2 := by
      funext k
      simp
    rw [hfun, toVec_10, vnormalize_of_norm_one (vnorm_basis 0)]
  rw [show (fun i : Fin 2 => superposeCore ([[(1:ℝ), 0]].map (fun v => toVec v 2)) i)
      = superposeCore ([[(1:ℝ), 0]].map (fun v => toVec v 2)) from rfl]
  rw [hcore]
  exact congrArg Except.ok ofFn_basis0

/-- Witness for the amended C2 at the concrete vocabulary `c2voc`: all
three wrapper operations succeed and store their result under the (already
existing) result name. -/
theorem c2_overwrite_witness :
    c2voc.bind "A" "B" "R"
      = Except.ok ([(0:ℝ), 1], ⟨c2voc.dim, dictSet c2voc.vectors "R" [(0:ℝ), 1]⟩) ∧
    c2voc.unbind "A" "B" "R"
      = Except.ok ([(0:ℝ), 1], ⟨c2voc.dim, dictSet c2voc.vectors "R" [(0:ℝ), 1]⟩) ∧
    c2voc.superpose ["A"] "R"
      = Except.ok ([(1:ℝ), 0], ⟨c2voc.dim, dictSet c2voc.vectors "R" [(1:ℝ), 0]⟩) :=
  ⟨(c2_overwrite.1 c2voc "A" "B" "R" _ _ _ rfl rfl c2_conv_eval).1,
   (c2_overwrite.2.1 c2voc "A" "B" "R" _ _ _ rfl rfl c2_corr_eval).1,
   (c2_overwrite.2.2 c2voc ["A"] "R" _ _ rfl c2_superpose_eval).1⟩

/-! ## Nearest-match scan -/

/-- The loop body of `find_nearest_match`: update on strictly greater
similarity. -/
def nmStep (input : List ℝ) (best : Option String × ℝ) (e : String × List ℝ) :
    Option String × ℝ :=
  if best.2 < listDot input e.2 then (some e.1, listDot input e.2) else best

lemma find_nearest_match_eq (cm : CleanupMemory) (v : List ℝ) (h : v.length = cm.dim) :
    cm.find_nearest_match v
      = Except.ok (cm.vocab.vectors.foldl (nmStep v) (none, -1)) := by
  rw [CleanupMemory.find_nearest_match, if_pos h]
  rfl

/-- Full characterization of the linear scan: starting from `b`, the fold
result is an upper bound of all scanned similarities; it either equals `b`
(no entry beat `b`), or the list splits around a winning entry whose
similarity the result carries, with every earlier entry strictly below it
and every later entry at most it (first maximizer in iteration order). -/
lemma nmFold_spec (input : List ℝ) :
    ∀ (l : List (String × List ℝ)) (b : Option String × ℝ),
      b.2 ≤ (l.foldl (nmStep input) b).2 ∧
      (∀ e ∈ l, listDot input e.2 ≤ (l.foldl (nmStep input) b).2) ∧
      ((l.foldl (nmStep input) b = b ∧ ∀ e ∈ l, listDot input e.2 ≤ b.2) ∨
        (∃ l₁ e l₂, l = l₁ ++ e :: l₂ ∧
          l.foldl (nmStep input) b = (some e.1, listDot input e.2) ∧
          b.2 < listDot input e.2 ∧
          (∀ x ∈ l₁, listDot input x.2 < listDot input e.2) ∧
          (∀ x ∈ l₂, listDot input x.2 ≤ listDot input e.2))) := by
  intro l
  induction l with
  | nil =>
    intro b
    exact ⟨le_refl _, by simp, Or.inl ⟨rfl, by simp⟩⟩
  | cons e t ih =>
    intro b
    rw [List.foldl_cons]
    by_cases hgt : b.2 < listDot input e.2
    · have hb : nmStep input b e = (some e.1, listDot input e.2) := by
        rw [nmStep, if_pos hgt]
      rw [hb]
      obtain ⟨h1, h2, h3⟩ := ih (some e.1, listDot input e.2)
      refine ⟨le_of_lt (lt_of_lt_of_le hgt h1), ?_, ?_⟩
      · intro x hx
        rcases List.mem_cons.mp hx with hx | hx
        · rw [hx]
          exact h1
        · exact h2 x hx
      · rcases h3 with ⟨heq, hall⟩ | ⟨l₁, w, l₂, hsplit, hres, hlt, hpre, hpost⟩
        · refine Or.inr ⟨[], e, t, by simp, by rw [heq], hgt, by simp, ?_⟩
          intro x hx
          exact hall x hx
        · refine Or.inr ⟨e :: l₁, w, l₂, by rw [hsplit]; rfl, hres,
            lt_trans hgt hlt, ?_, hpost⟩
          intro x hx
          rcases List.mem_cons.mp hx with hx | hx
          · rw [hx]
            exact hlt
          · exact hpre x hx
    · have hb : nmStep input b e = b := by
        rw [nmStep, if_neg hgt]
      rw [hb]
      obtain ⟨h1, h2, h3⟩ := ih b
      have hle : listDot input e.2 ≤ b.2 := le_of_not_lt hgt
      refine ⟨h1, ?_, ?_⟩
      · intro x hx
        rcases List.mem_cons.mp hx with hx | hx
        · rw [hx]
          exact le_trans hle h1
        · exact h2 x hx
      · rcases h3 with ⟨heq, hall⟩ | ⟨l₁, w, l₂, hsplit, hres, hlt, hpre, hpost⟩
        · refine Or.inl ⟨heq, ?_⟩
          intro x hx
          rcases List.mem_cons.mp hx with hx | hx
          · rw [hx]
            exact hle
          · exact hall x hx
        · refine Or.inr ⟨e :: l₁, w, l₂, by rw [hsplit]; rfl, hres, hlt, ?_, hpost⟩
          intro x hx
          rcases List.mem_cons.mp hx with hx | hx
          · rw [hx]
            exact lt_of_le_of_lt hle hlt
          · exact hpre x hx

/-- Claim C5 (amended): `find_nearest_match` behaves as claimed whenever at
least one vocabulary entry has similarity strictly above the `-1.0`
initializer of the scan: it then returns the name and similarity of a
vocabulary entry that maximizes the similarity, and among equal maximizers
the first in vocabulary iteration (insertion) order.  (When every
similarity is `≤ -1` the scan never updates and returns `(None, -1.0)`
instead of a vocabulary entry — see the counterexample.) -/
theorem c5_nearest_match_amended (cm : CleanupMemory) (input : List ℝ)
    (hlen : input.length = cm.dim)
    (hsome : ∃ e ∈ cm.vocab.vectors, -1 < listDot input e.2) :
    ∃ l₁ e l₂, cm.vocab.vectors = l₁ ++ e :: l₂ ∧
      cm.find_nearest_match input = Except.ok (some e.1, listDot input e.2) ∧
      (∀ x ∈ cm.vocab.vectors, listDot input x.2 ≤ listDot input e.2) ∧
      (∀ x ∈ l₁, listDot input x.2 < listDot input e.2) := by
  obtain ⟨h1, h2, h3⟩ := nmFold_spec input cm.vocab.vectors (none, -1)
  rcases h3 with ⟨heq, hall⟩ | ⟨l₁, w, l₂, hsplit, hres, hlt, hpre, hpost⟩
  · obtain ⟨e0, he0, he0gt⟩ := hsome
    exact absurd (hall e0 he0) (not_le.mpr he0gt)
  · refine ⟨l₁, w, l₂, hsplit, ?_, ?_, hpre⟩
    · rw [find_nearest_match_eq cm input hlen, hres]
    · intro x hx
      have hx2 := h2 x hx
      rw [hres] at hx2
      exact hx2

/-- The single-entry vocabulary and cleanup memory used by C5 and the
cleanup claims. -/
def c5voc : SemanticVocabulary := ⟨2, [("A", [1, 0])]⟩

def c5cm : CleanupMemory := ⟨c5voc, 2, 0.001, hopfieldWeights c5voc⟩

lemma c5_dot_self : listDot [(1:ℝ), 0] [(1:ℝ), 0] = 1 := by
  simp [listDot, lget, Fin.sum_univ_two]

lemma c5_dot_neg : listDot [(-1:ℝ), 0] [(1:ℝ), 0] = -1 := by
  simp [listDot, lget, Fin.sum_univ_two]

/-- Claim C5 counterexample: with vocabulary `{A ↦ (1,0)}` and input
`(-1, 0)` (similarity exactly `-1`, not strictly above the initializer),
`find_nearest_match` returns `(None, -1.0)`: the returned name is not a
vocabulary entry and the similarity is the initializer, not the maximal
similarity of an entry. -/
theorem c5_counterexample :
    c5cm.find_nearest_match [(-1:ℝ), 0] = Except.ok (none, -1) ∧
    ∀ (nm : String) (s : ℝ),
      (Except.ok ((none : Option String), (-1:ℝ)) : Except String (Option String × ℝ))
        ≠ Except.ok (some nm, s) := by
  constructor
  · rw [find_nearest_match_eq c5cm [(-1:ℝ), 0] rfl]
    rw [show c5cm.vocab.vectors = [("A", [(1:ℝ), 0])] from rfl]
    rw [List.foldl_cons, nmStep, c5_dot_neg, if_neg (lt_irrefl (-1:ℝ))]
    rfl
  · intro nm s
    simp

/-- Witness for the amended C5 at `c5cm` with input `(1, 0)`. -/
theorem c5_nearest_match_witness :
    ∃ l₁ e l₂, c5cm.vocab.vectors = l₁ ++ e :: l₂ ∧
      c5cm.find_nearest_match [(1:ℝ), 0] = Except.ok (some e.1, listDot [(1:ℝ), 0] e.2) ∧
      (∀ x ∈ c5cm.vocab.vectors, listDot [(1:ℝ), 0] x.2 ≤ listDot [(1:ℝ), 0] e.2) ∧
      (∀ x ∈ l₁, listDot [(1:ℝ), 0] x.2 < listDot [(1:ℝ), 0] e.2) :=
  c5_nearest_match_amended c5cm [(1:ℝ), 0] rfl
    ⟨("A", [1, 0]), by simp [c5cm, c5voc], by rw [c5_dot_self]; norm_num⟩

/-! ## The settling loop of cleanup -/

lemma getD_snoc_last {β : Type _} (l : List β) (a d : β) :
    (l ++ [a]).getD l.length d = a := by
  rw [List.getD_append_right _ _ _ _ (le_refl l.length)]
  simp

lemma getD_snoc_lt {β : Type _} (l : List β) (a d : β) (n : ℕ) (h : n < l.length) :
    (l ++ [a]).getD n d = l.getD n d :=
  List.getD_append _ _ _ _ h

/-- Invariant of `cleanupLoop`: starting from a nonempty trajectory whose
last element is the current state, the loop executes between `0` and `fuel`
further iterations, appends exactly one trajectory element per executed
iteration, preserves the collected prefix, ends the trajectory with the
returned vector, converges (last step below threshold) whenever it stops
before exhausting the fuel, and every consecutive pair of new trajectory
elements is related by `cleanupStep`. -/
lemma cleanupLoop_spec {D : ℕ} (W : Fin D → Fin D → ℝ) (θ : ℝ) (noisy : Vec D) :
    ∀ (fuel : ℕ) (x : Vec D) (traj : List (Vec D)) (done : ℕ),
      traj ≠ [] → traj.getD (traj.length - 1) 0 = x →
      ∀ r t n, cleanupLoop W θ noisy fuel x traj done = (r, t, n) →
        done ≤ n ∧ n ≤ done + fuel ∧
        t.length = traj.length + (n - done) ∧
        (∃ ext, t = traj ++ ext) ∧
        t.getD (t.length - 1) 0 = r ∧
        (n < done + fuel →
          vdist (t.getD (t.length - 1) 0) (t.getD (t.length - 2) 0) < θ) ∧
        (∀ i, traj.length - 1 ≤ i → i + 1 < t.length →
          t.getD (i + 1) 0 = cleanupStep W noisy (t.getD i 0)) := by
  intro fuel
  induction fuel with
  | zero =>
    intro x traj done hne hlast r t n heq
    have hlen1 : 0 < traj.length := List.length_pos.mpr hne
    have h0 : cleanupLoop W θ noisy 0 x traj done = (x, traj, done) := rfl
    rw [h0] at heq
    injection heq with h1 h23
    injection h23 with h2 h3
    subst h1
    subst h2
    subst h3
    refine ⟨le_refl _, by omega, by omega, ⟨[], by simp⟩, hlast, ?_, ?_⟩
    · intro hn
      omega
    · intro i hi1 hi2
      omega
  | succ f ih =>
    intro x traj done hne hlast r t n heq
    have hlen1 : 0 < traj.length := List.length_pos.mpr hne
    have hstep : cleanupLoop W θ noisy (f + 1) x traj done
        = if vdist (cleanupStep W noisy x) x < θ
          then (cleanupStep W noisy x, traj ++ [cleanupStep W noisy x], done + 1)
          else cleanupLoop W θ noisy f (cleanupStep W noisy x)
            (traj ++ [cleanupStep W noisy x]) (done + 1) := rfl
    rw [hstep] at heq
    have hl2 : (traj ++ [cleanupStep W noisy x]).length = traj.length + 1 := by simp
    have hlast2 : (traj ++ [cleanupStep W noisy x]).getD
        ((traj ++ [cleanupStep W noisy x]).length - 1) 0 = cleanupStep W noisy x := by
      rw [hl2, Nat.add_sub_cancel]
      exact getD_snoc_last traj (cleanupStep W noisy x) 0
    by_cases hc : vdist (cleanupStep W noisy x) x < θ
    · rw [if_pos hc] at heq
      injection heq with h1 h23
      injection h23 with h2 h3
      subst h1
      subst h2
      subst h3
      refine ⟨by omega, by omega, by rw [hl2]; omega,
        ⟨[cleanupStep W noisy x], rfl⟩, hlast2, ?_, ?_⟩
      · intro _
        rw [hlast2]
        have hpen : (traj ++ [cleanupStep W noisy x]).getD
            ((traj ++ [cleanupStep W noisy x]).length - 2) 0 = x := by
          rw [hl2]
          have h12 : traj.length + 1 - 2 = traj.length - 1 := by omega
          rw [h12, getD_snoc_lt traj (cleanupStep W noisy x) 0 _ (by omega)]
          exact hlast
        rw [hpen]
        exact hc
      · intro i hi1 hi2
        rw [hl2] at hi2
        have hieq : i = traj.length - 1 := by omega
        subst hieq
        have hi' : traj.length - 1 + 1 = traj.length := by omega
        rw [hi', getD_snoc_last traj (cleanupStep W noisy x) 0,
          getD_snoc_lt traj (cleanupStep W noisy x) 0 _ (by omega), hlast]
    · rw [if_neg hc] at heq
      obtain ⟨ha, hb, hcl, ⟨ext, hext⟩, hlst, hcv, hrel⟩ :=
        ih (cleanupStep W noisy x) (traj ++ [cleanupStep W noisy x]) (done + 1)
          (by simp) hlast2 r t n heq
      refine ⟨by omega, by omega, ?_,
        ⟨cleanupStep W noisy x :: ext, by rw [hext, List.append_assoc]; rfl⟩,
        hlst, ?_, ?_⟩
      · rw [hcl, hl2]
        omega
      · intro hn
        exact hcv (by omega)
      · intro i hi1 hi2
        by_cases hcase : traj.length ≤ i
        · exact hrel i (by rw [hl2]; omega) hi2
        · have hieq : i = traj.length - 1 := by omega
          subst hieq
          have hi' : traj.length - 1 + 1 = traj.length := by omega
          have htlen : traj.length < t.length := by
            rw [hcl, hl2]
            omega
          have hty : t.getD traj.length 0 = cleanupStep W noisy x := by
            rw [hext, List.getD_append _ _ _ _ (by rw [hl2]; omega)]
            exact getD_snoc_last traj (cleanupStep W noisy x) 0
          have htx : t.getD (traj.length - 1) 0 = x := by
            rw [hext, List.getD_append _ _ _ _ (by rw [hl2]; omega),
              getD_snoc_lt traj (cleanupStep W noisy x) 0 _ (by omega)]
            exact hlast
          rw [hi', hty, htx]

/-- Claim C4: with `return_trajectory=True`, `cleanup` returns an iteration
count `n ≤ max_iterations`, a trajectory of length `n + 1` whose head is
the raw (pre-iteration) input vector, and when `n < max_iterations`
(convergence before exhaustion) the L2 distance between the last two
trajectory points is below the threshold. -/
theorem c4_cleanup_trajectory {D : ℕ} (W : Fin D → Fin D → ℝ) (θ : ℝ)
    (noisy : Vec D) (max_iterations : ℕ) :
    ∀ r t n, cleanupRun W θ noisy max_iterations = (r, t, n) →
      n ≤ max_iterations ∧ t.length = n + 1 ∧ t.head? = some noisy ∧
      (n < max_iterations → vdist (t.getD n 0) (t.getD (n - 1) 0) < θ) := by
  intro r t n heq
  obtain ⟨ha, hb, hlen, ⟨ext, hext⟩, hlst, hcv, hrel⟩ :=
    cleanupLoop_spec W θ noisy max_iterations noisy [noisy] 0
      (by simp) (by simp) r t n heq
  have hlen' : t.length = n + 1 := by
    rw [hlen]
    simp
    omega
  refine ⟨by omega, hlen', ?_, ?_⟩
  · rw [hext]
    rfl
  · intro hn
    have h1 : t.length - 1 = n := by omega
    have h2 : t.length - 2 = n - 1 := by omega
    have h3 := hcv (by omega)
    rwa [h1, h2] at h3

/-- One settling step when the `tanh` image is at or below the floor:
reset to the re-normalized original noisy vector. -/
lemma cleanupStep_degenerate {D : ℕ} (W : Fin D → Fin D → ℝ) (noisy x : Vec D)
    (h : vnorm (tanhStepRaw W x) < 1e-10) :
    cleanupStep W noisy x = fun k => noisy k / vnorm noisy := by
  show (if (1e-10:ℝ) < vnorm (tanhStepRaw W x)
      then fun i => tanhStepRaw W x i / vnorm (tanhStepRaw W x)
      else fun i => noisy i / vnorm noisy) = fun k => noisy k / vnorm noisy
  rw [if_neg (not_lt.mpr (le_of_lt h))]

/-- Claim C6: during `cleanup`, whenever an iterate `tanh(W @ x)` has L2
norm below the `1e-10` floor, the next trajectory element is the original
input vector divided by its own L2 norm — the re-normalized original noisy
vector, not the degenerate all-zero vector; the embedding is total, so no
exception is involved. -/
theorem c6_degenerate_recovery {D : ℕ} (W : Fin D → Fin D → ℝ) (θ : ℝ)
    (noisy : Vec D) (max_iterations i : ℕ) :
    ∀ r t n, cleanupRun W θ noisy max_iterations = (r, t, n) →
      i + 1 < t.length →
      vnorm (tanhStepRaw W (t.getD i 0)) < 1e-10 →
      t.getD (i + 1) 0 = fun k => noisy k / vnorm noisy := by
  intro r t n heq hi hsmall
  obtain ⟨_, _, _, _, _, _, hrel⟩ :=
    cleanupLoop_spec W θ noisy max_iterations noisy [noisy] 0
      (by simp) (by simp) r t n heq
  rw [hrel i (by simp) hi]
  exact cleanupStep_degenerate W noisy _ hsmall

/-! ## Unit-norm invariant -/

lemma cleanupStep_norm {D : ℕ} (W : Fin D → Fin D → ℝ) (noisy x : Vec D)
    (h : vnorm noisy ≠ 0) : vnorm (cleanupStep W noisy x) = 1 := by
  show vnorm (if (1e-10:ℝ) < vnorm (tanhStepRaw W x)
      then fun i => tanhStepRaw W x i / vnorm (tanhStepRaw W x)
      else fun i => noisy i / vnorm noisy) = 1
  by_cases hn : (1e-10:ℝ) < vnorm (tanhStepRaw W x)
  · rw [if_pos hn]
    exact vnorm_div_self _ (vnorm_ne_zero_of_floor hn)
  · rw [if_neg hn]
    exact vnorm_div_self _ h

lemma cleanupLoop_result_norm {D : ℕ} (W : Fin D → Fin D → ℝ) (θ : ℝ)
    (noisy : Vec D) (h : vnorm noisy ≠ 0) :
    ∀ (fuel : ℕ) (x : Vec D) (traj : List (Vec D)) (done : ℕ), vnorm x = 1 →
      vnorm (cleanupLoop W θ noisy fuel x traj done).1 = 1 := by
  intro fuel
  induction fuel with
  | zero =>
    intro x traj done hx
    exact hx
  | succ f ih =>
    intro x traj done hx
    show vnorm (if vdist (cleanupStep W noisy x) x < θ
        then (cleanupStep W noisy x, traj ++ [cleanupStep W noisy x], done + 1)
        else cleanupLoop W θ noisy f (cleanupStep W noisy x)
          (traj ++ [cleanupStep W noisy x]) (done + 1)).1 = 1
    by_cases hc : vdist (cleanupStep W noisy x) x < θ
    · rw [if_pos hc]
      exact cleanupStep_norm W noisy x h
    · rw [if_neg hc]
      exact ih _ _ _ (cleanupStep_norm W noisy x h)

lemma cleanupRun_norm {D : ℕ} (W : Fin D → Fin D → ℝ) (θ : ℝ) (noisy : Vec D)
    (m : ℕ) (hm : 1 ≤ m) (h : vnorm noisy ≠ 0) :
    vnorm (cleanupRun W θ noisy m).1 = 1 := by
  obtain ⟨f, rfl⟩ : ∃ f, m = f + 1 := ⟨m - 1, by omega⟩
  show vnorm (if vdist (cleanupStep W noisy noisy) noisy < θ
      then (cleanupStep W noisy noisy, [noisy] ++ [cleanupStep W noisy noisy], 0 + 1)
      else cleanupLoop W θ noisy f (cleanupStep W noisy noisy)
        ([noisy] ++ [cleanupStep W noisy noisy]) (0 + 1)).1 = 1
  by_cases hc : vdist (cleanupStep W noisy noisy) noisy < θ
  · rw [if_pos hc]
    exact cleanupStep_norm W noisy noisy h
  · rw [if_neg hc]
    exact cleanupLoop_result_norm W θ noisy h f _ _ _ (cleanupStep_norm W noisy noisy h)

lemma listNorm_ne_zero_of_floor {l : List ℝ} (h : (1e-10:ℝ) < listNorm l) :
    listNorm l ≠ 0 :=
  ne_of_gt (lt_trans (by norm_num) h)

/-- Claim C7 (amended): every vector returned by `circular_convolution`,
`circular_correlation`, `superposition`, `SemanticVocabulary.add` (on its
supplied-vector path), `NeuralEncoder.decode`, and `CleanupMemory.cleanup`
called with `max_iterations ≥ 1` on an input of nonzero norm has L2 norm
within 0.01 of 1.0 (exactly 1 in exact arithmetic), except in the
degenerate cases where the unnormalized result's norm is at or below the
`1e-10` floor.  The restriction on `cleanup` is forced by the
counterexample: with `max_iterations = 0` the raw input is returned
unchanged. -/
theorem c7_unit_norm_amended :
    (∀ (D : ℕ) (a b : Vec D), (1e-10:ℝ) < vnorm (rawConv a b) →
      |vnorm (convFn a b) - 1| ≤ 0.01) ∧
    (∀ (D : ℕ) (c a : Vec D), (1e-10:ℝ) < vnorm (rawCorr c a) →
      |vnorm (corrFn c a) - 1| ≤ 0.01) ∧
    (∀ (D : ℕ) (vs : List (Vec D)),
      (1e-10:ℝ) < vnorm (fun k => (vs.map (fun v => v k)).sum) →
      |vnorm (superposeCore vs) - 1| ≤ 0.01) ∧
    (∀ (voc : SemanticVocabulary) (name : String) (vec : List ℝ)
        (res : List ℝ × SemanticVocabulary),
      voc.add name vec = Except.ok res → (1e-10:ℝ) < listNorm vec →
      |listNorm res.1 - 1| ≤ 0.01) ∧
    (∀ (n d : ℕ) (enc : NeuralEncoder n d) (fr out : List ℝ),
      enc.decode fr = Except.ok out → (1e-10:ℝ) < vnorm (decodeRaw enc fr) →
      |listNorm out - 1| ≤ 0.01) ∧
    (∀ (D : ℕ) (W : Fin D → Fin D → ℝ) (θ : ℝ) (noisy : Vec D) (m : ℕ),
      1 ≤ m → vnorm noisy ≠ 0 →
      |vnorm (cleanupRun W θ noisy m).1 - 1| ≤ 0.01) := by
  refine ⟨?_, ?_, ?_, ?_, ?_, ?_⟩
  · intro D a b h
    rw [convFn, vnormalize_norm h]
    norm_num
  · intro D c a h
    rw [corrFn, vnormalize_norm h]
    norm_num
  · intro D vs h
    rw [superposeCore, vnormalize_norm h]
    norm_num
  · intro voc name vec res hok hfloor
    rw [SemanticVocabulary.add] at hok
    by_cases h1 : voc.vectors.any (fun e => e.1 == name) = true
    · rw [if_pos h1] at hok
      exact absurd hok (by simp)
    · rw [if_neg h1] at hok
      by_cases h2 : vec.length = voc.dim
      · rw [if_pos h2, Except.ok.injEq] at hok
        have hres : res.1 = normalizeList vec := by
          rw [← hok]
        rw [hres, normalizeList, if_pos hfloor,
          listNorm_map_div vec (listNorm_ne_zero_of_floor hfloor)]
        norm_num
      · rw [if_neg h2] at hok
        exact absurd hok (by simp)
  · intro n d enc fr out hok hfloor
    rw [NeuralEncoder.decode] at hok
    by_cases h1 : fr.length = n
    · rw [if_pos h1, Except.ok.injEq] at hok
      have hout : out = List.ofFn (vnormalize (decodeRaw enc fr)) := hok.symm
      rw [hout, listNorm_ofFn, vnormalize_norm hfloor]
      norm_num
    · rw [if_neg h1] at hok
      exact absurd hok (by simp)
  · intro D W θ noisy m hm h
    rw [cleanupRun_norm W θ noisy m hm h]
    norm_num

/-- The doubled basis vector `(2, 0)` used by the C7 counterexample. -/
def c7noisy : Vec 2 := fun i => 2 * basis 0 i

lemma vnorm_c7noisy : vnorm c7noisy = 2 := by
  rw [vnorm_def]
  have hsum : (∑ i, c7noisy i ^ 2) = 4 := by
    have hpt : ∀ i : Fin 2, c7noisy i ^ 2 = 4 * basis (0 : Fin 2) i ^ 2 := by
      intro i
      rw [c7noisy]
      ring
    rw [Finset.sum_congr rfl fun i _ => hpt i, ← Finset.mul_sum, sumSq_basis]
    norm_num
  rw [hsum, show (4:ℝ) = 2 ^ 2 by norm_num,
    Real.sqrt_sq (by norm_num : (0:ℝ) ≤ 2)]

/-- Claim C7 counterexample: `cleanup` called with `max_iterations = 0` on
the dimension-matching input `(2, 0)` returns the raw input unchanged, a
vector of norm 2 — not within 0.01 of 1.0 — even though no norm in the
computation is anywhere near the `1e-10` floor. -/
theorem c7_counterexample :
    (cleanupRun (hopfieldWeights c5voc) 0.001 c7noisy 0).1 = c7noisy ∧
    vnorm c7noisy = 2 ∧
    ¬ (|vnorm ((cleanupRun (hopfieldWeights c5voc) 0.001 c7noisy 0).1) - 1| ≤ 0.01) := by
  have hrun : (cleanupRun (hopfieldWeights c5voc) 0.001 c7noisy 0).1 = c7noisy := rfl
  refine ⟨hrun, vnorm_c7noisy, ?_⟩
  rw [hrun, vnorm_c7noisy]
  norm_num

/-! ## Concrete cleanup run used by the witnesses -/

/-- The Hopfield weights of `c5voc`, ascribed at dimension 2. -/
def c5W : Fin 2 → Fin 2 → ℝ := hopfieldWeights c5voc


/-- The Hopfield matrix of the one-entry vocabulary `{A ↦ (1,0)}` is the
zero matrix: the outer product of `(1,0)` with itself has its only nonzero
entry on the diagonal, which the rule zeroes out. -/
lemma c5_weights_zero : ∀ i j : Fin 2, c5W i j = 0 := by
  intro i j
  show hopfieldWeights c5voc i j = 0
  rw [hopfieldWeights]
  by_cases h : i = j
  · rw [if_pos h]
  · rw [if_neg h]
    show (List.map (fun e => lget e.2 i.val * lget e.2 j.val)
      [("A", [(1:ℝ), 0])]).sum = 0
    fin_cases i <;> fin_cases j <;> simp_all [lget]

lemma c5_tanh_zero (x : Vec 2) :
    tanhStepRaw (c5W) x = fun _ => 0 := by
  funext i
  rw [tanhStepRaw]
  rw [show (∑ j, c5W i j * x j) = 0 from
    Finset.sum_eq_zero fun j _ => by rw [c5_weights_zero i j, zero_mul]]
  exact Real.tanh_zero

lemma c5_step_const (x : Vec 2) :
    cleanupStep (c5W) (basis 0) x = basis 0 := by
  rw [cleanupStep_degenerate _ _ _ (by rw [c5_tanh_zero, vnorm_zero_fun]; norm_num),
    vnorm_basis]
  funext k
  simp

lemma vdist_self {D : ℕ} (x : Vec D) : vdist x x = 0 := by
  rw [vdist]
  rw [show (fun i => x i - x i) = fun _ : Fin D => (0:ℝ) from funext fun i => sub_self (x i)]
  exact vnorm_zero_fun

/-- Evaluation of the settling run on the zero Hopfield matrix from the
unit input `e_0` with two allowed iterations: the first step already
converges (via the degenerate-reset branch), giving iteration count 1. -/
lemma c4_run_eval :
    cleanupRun (c5W) 0.001 (basis 0) 2
      = (basis 0, [basis 0, basis 0], 1) := by
  have h1 : cleanupRun (c5W) 0.001 (basis 0) 2
      = if vdist (cleanupStep (c5W) (basis 0) (basis 0)) (basis 0) < 0.001
        then (cleanupStep (c5W) (basis 0) (basis 0),
          [basis 0] ++ [cleanupStep (c5W) (basis 0) (basis 0)], 0 + 1)
        else cleanupLoop (c5W) 0.001 (basis 0) 1
          (cleanupStep (c5W) (basis 0) (basis 0))
          ([basis 0] ++ [cleanupStep (c5W) (basis 0) (basis 0)])
          (0 + 1) := rfl
  rw [h1, c5_step_const, vdist_self, if_pos (by norm_num : (0:ℝ) < 0.001)]
  rfl

/-- Witness for C4 at the concrete run `c4_run_eval`: iteration count 1 of
2 allowed, trajectory length 2 headed by the input, and the converged last
step below the threshold. -/
theorem c4_cleanup_trajectory_witness :
    ([basis (0 : Fin 2), basis 0] : List (Vec 2)).length = 1 + 1 ∧
    ([basis (0 : Fin 2), basis 0] : List (Vec 2)).head? = some (basis 0) ∧
    vdist (([basis (0 : Fin 2), basis 0] : List (Vec 2)).getD 1 0)
      (([basis (0 : Fin 2), basis 0] : List (Vec 2)).getD (1 - 1) 0) < 0.001 := by
  have h := c4_cleanup_trajectory (c5W) 0.001 (basis 0) 2
    (basis 0) [basis 0, basis 0] 1 c4_run_eval
  exact ⟨h.2.1, h.2.2.1, h.2.2.2 (by norm_num)⟩

/-- Witness for C6 at the concrete run `c4_run_eval`: the `tanh` image of
the first iterate has norm 0 (below the floor), and the next trajectory
element is the re-normalized original input. -/
theorem c6_degenerate_recovery_witness :
    ([basis (0 : Fin 2), basis 0] : List (Vec 2)).getD 1 0
      = fun k => basis (0 : Fin 2) k / vnorm (basis (0 : Fin 2)) :=
  c6_degenerate_recovery (c5W) 0.001 (basis 0) 2 0
    (basis 0) [basis 0, basis 0] 1 c4_run_eval (by norm_num)
    (by rw [show ([basis (0 : Fin 2), basis 0] : List (Vec 2)).getD 0 0 = basis 0 from rfl,
      c5_tanh_zero, vnorm_zero_fun]; norm_num)

/-- Witness for the amended C9: concrete commutativity of the full wrapper
on `(1,0)`/`(0,1)`, and similarity 1 of the two binding orders of
`e_0, e_1` (non-degenerate since the raw convolution has norm 1). -/
theorem c9_bind_commutative_witness :
    circular_convolution [(1:ℝ), 0] [(0:ℝ), 1]
      = circular_convolution [(0:ℝ), 1] [(1:ℝ), 0] ∧
    dotFn (convFn (basis (0 : Fin 2)) (basis 1)) (convFn (basis 1) (basis 0)) > 0.99 :=
  ⟨c9_bind_commutative.1 _ _ rfl,
   c9_bind_commutative.2 2 (basis 0) (basis 1)
     (by rw [rawConv_basis, vnorm_basis]; norm_num)⟩

/-- A one-neuron decoder over dimension 2 whose decode matrix projects onto
`e_0`, used by the C7 witness. -/
def c7enc : NeuralEncoder 1 2 := ⟨fun _ _ => 0, fun i _ => basis 0 i⟩

lemma c7_decodeRaw : decodeRaw c7enc [(1:ℝ)] = basis 0 := by
  funext i
  rw [decodeRaw, Fin.sum_univ_one]
  simp [c7enc, lget]

lemma listNorm_10 : listNorm [(1:ℝ), 0] = 1 := by
  rw [show listNorm [(1:ℝ), 0] = vnorm (toVec [(1:ℝ), 0] 2) from rfl,
    toVec_10, vnorm_basis]

/-- Witness for the amended C7: each conjunct instantiated at a concrete
non-degenerate input. -/
theorem c7_unit_norm_witness :
    |vnorm (convFn (basis (0 : Fin 2)) (basis 0)) - 1| ≤ 0.01 ∧
    |vnorm (corrFn (basis (0 : Fin 2)) (basis 0)) - 1| ≤ 0.01 ∧
    |vnorm (superposeCore [basis (0 : Fin 2)]) - 1| ≤ 0.01 ∧
    |listNorm (normalizeList [(1:ℝ), 0]) - 1| ≤ 0.01 ∧
    |listNorm (List.ofFn fun i : Fin 2 =>
      vnormalize (decodeRaw c7enc [(1:ℝ)]) i) - 1| ≤ 0.01 ∧
    |vnorm (cleanupRun c5W 0.001 (basis 0) 1).1 - 1| ≤ 0.01 := by
  refine ⟨?_, ?_, ?_, ?_, ?_, ?_⟩
  · exact c7_unit_norm_amended.1 2 (basis 0) (basis 0)
      (by rw [rawConv_basis, vnorm_basis]; norm_num)
  · exact c7_unit_norm_amended.2.1 2 (basis 0) (basis 0)
      (by rw [rawCorr_basis, vnorm_basis]; norm_num)
  · refine c7_unit_norm_amended.2.2.1 2 [basis 0] ?_
    rw [show (fun k : Fin 2 => (List.map (fun v => v k) [basis 0]).sum) = basis 0 from
      funext fun k => by simp]
    rw [vnorm_basis]
    norm_num
  · exact c7_unit_norm_amended.2.2.2.1 ⟨2, []⟩ "A" [(1:ℝ), 0]
      (normalizeList [(1:ℝ), 0],
        ⟨2, dictSet [] "A" (normalizeList [(1:ℝ), 0])⟩)
      rfl (by rw [listNorm_10]; norm_num)
  · exact c7_unit_norm_amended.2.2.2.2.1 1 2 c7enc [(1:ℝ)]
      (List.ofFn fun i : Fin 2 => vnormalize (decodeRaw c7enc [(1:ℝ)]) i)
      rfl (by rw [c7_decodeRaw, vnorm_basis]; norm_num)
  · exact c7_unit_norm_amended.2.2.2.2.2 2 c5W 0.001 (basis 0) 1
      (le_refl 1) (by rw [vnorm_basis]; norm_num)

end BrainEmulation
